import Mathlib

/-!
# Verification of the `!specialcharstweak.py` patcher

Shallow embedding of the source-patching script from
`Il2CppInspectorRedux-UnicodeFix`.  Text is modelled as `List Char`
(Python strings are sequences of code points).  Each Python operation
used by the script is translated into an executable Lean function:

* `escape_str` models the `escape_str` function (three chained
  `str.replace` calls);
* `reSubGeneric` models `re.sub` for the two patterns of the `FIND`
  dictionary, whose shape is `("[^\n]*)(a-zA-Z|A-Za-z)([^\n]*")`
  (and the single-quote twin);
* `targetedSub` models `re.sub` for the targeted
  `string allowSpecialChars.*\)` rewrite of `Extensions.cs`;
* `processFile` / `runAll` model the per-file dispatch of the
  `os.walk` loop together with its observable read / print / write
  events;
* `readWithFallback` / `writeWithFallback` model the
  `try: open(...) except UnicodeEncodeError:` retry structure.
-/

/-! ## The escaper

Python source:
```
def escape_str(s: str, single_quote: bool) -> str:
    escaped = s.replace("\\", r"\\").replace(r"\n", r"\\n")
    if single_quote:
        return escaped.replace("'", r"\'")
    else:
        return escaped.replace("\"", "\\\"")
```
`str.replace` scans left to right, replacing non-overlapping
occurrences; replaced text is not rescanned.  Each of the three calls
is specialised below. -/

/-- Model of `s.replace("\\", "\\\\")`: every backslash is doubled. -/
def escBackslashes : List Char → List Char
  | [] => []
  | c :: rest =>
    if c = '\\' then '\\' :: '\\' :: escBackslashes rest
    else c :: escBackslashes rest

/-- Model of `s.replace("\\n", "\\\\n")`: each (non-overlapping,
left-to-right) occurrence of the two-character sequence backslash-`n`
becomes backslash-backslash-`n`. -/
def escBackslashN : List Char → List Char
  | [] => []
  | [c] => [c]
  | c1 :: c2 :: rest =>
    if c1 = '\\' ∧ c2 = 'n' then '\\' :: '\\' :: 'n' :: escBackslashN rest
    else c1 :: escBackslashN (c2 :: rest)

/-- Model of `s.replace(q, "\\" ++ q)` for a one-character pattern `q`
(the final quote-escaping `replace` of `escape_str`). -/
def escQuoteChar (q : Char) : List Char → List Char
  | [] => []
  | c :: rest =>
    if c = q then '\\' :: q :: escQuoteChar q rest
    else c :: escQuoteChar q rest

/-- Model of the Python `escape_str` function. -/
def escape_str (s : List Char) (single_quote : Bool) : List Char :=
  let escaped := escBackslashN (escBackslashes s)
  if single_quote then escQuoteChar '\'' escaped
  else escQuoteChar '"' escaped

/-! ## Escapedness scanner

A character of a string is *escaped* when, scanning left to right and
treating every backslash as consuming the character after it, the
character is consumed as the second member of such a backslash pair.
`hasUnescaped c l` is true when `l` contains an occurrence of `c`
that is not consumed this way (a trailing lone backslash counts as an
unescaped backslash). -/

def hasUnescaped (c : Char) : List Char → Bool
  | [] => false
  | [x] => x = c
  | x1 :: x2 :: rest =>
    if x1 = '\\' then hasUnescaped c rest
    else (x1 = c) || hasUnescaped c (x2 :: rest)

/-! ### Structure of `escBackslashN ∘ escBackslashes`

The composed first two replaces map each original character to a small
block: `c ↦ [c]` for `c ≠ '\\'`, while a backslash becomes `['\\', '\\']`,
except that a backslash immediately followed by `n` produces the block
`['\\', '\\', '\\', 'n']` (the doubled backslash re-creates a `\n`
occurrence which the second replace then doubles again). -/

theorem escPair_nil : escBackslashN (escBackslashes []) = [] := rfl

theorem escPair_backslash_n (s : List Char) :
    escBackslashN (escBackslashes ('\\' :: 'n' :: s)) =
      '\\' :: '\\' :: '\\' :: 'n' :: escBackslashN (escBackslashes s) := by
  simp [escBackslashes, escBackslashN]

theorem escPair_backslash_single :
    escBackslashN (escBackslashes ['\\']) = ['\\', '\\'] := by
  simp [escBackslashes, escBackslashN]

theorem escPair_backslash_cons (c : Char) (s : List Char) (hc : c ≠ 'n') :
    escBackslashN (escBackslashes ('\\' :: c :: s)) =
      '\\' :: '\\' :: escBackslashN (escBackslashes (c :: s)) := by
  by_cases hb : c = '\\'
  · subst hb
    simp [escBackslashes, escBackslashN]
  · simp [escBackslashes, escBackslashN, hb, hc]

theorem escPair_other (c : Char) (s : List Char) (hc : c ≠ '\\') :
    escBackslashN (escBackslashes (c :: s)) =
      c :: escBackslashN (escBackslashes s) := by
  cases h : escBackslashes s with
  | nil => simp [escBackslashes, escBackslashN, hc, h]
  | cons x xs => simp [escBackslashes, escBackslashN, hc, h]

/-! ### Scanner helper lemmas -/

theorem hasUnescaped_pair (c x : Char) (rest : List Char) :
    hasUnescaped c ('\\' :: x :: rest) = hasUnescaped c rest := by
  simp [hasUnescaped]

theorem hasUnescaped_cons_ne (c x : Char) (rest : List Char)
    (h1 : x ≠ '\\') (h2 : x ≠ c) :
    hasUnescaped c (x :: rest) = hasUnescaped c rest := by
  cases rest with
  | nil => simp [hasUnescaped, h2]
  | cons y ys => simp [hasUnescaped, h1, h2]

/-- Key safety lemma for `escape_str`: for any target quote `q`
distinct from backslash and from `n`, the fully escaped output has no
unescaped occurrence of `q` and no unescaped backslash. -/
theorem escape_no_unescaped (q : Char) (hq1 : q ≠ '\\') (hq2 : q ≠ 'n') :
    ∀ n s, List.length s ≤ n →
      hasUnescaped q (escQuoteChar q (escBackslashN (escBackslashes s))) = false ∧
      hasUnescaped '\\' (escQuoteChar q (escBackslashN (escBackslashes s))) = false := by
  intro n
  induction n with
  | zero =>
    intro s hs
    have : s = [] := List.length_eq_zero.mp (Nat.le_zero.mp hs)
    subst this
    simp [escBackslashes, escBackslashN, escQuoteChar, hasUnescaped]
  | succ m ih =>
    intro s hs
    match s with
    | [] => simp [escBackslashes, escBackslashN, escQuoteChar, hasUnescaped]
    | [c] =>
      by_cases hb : c = '\\'
      · subst hb
        simp [escPair_backslash_single, escQuoteChar, hq1.symm, hasUnescaped]
      · rw [show escBackslashN (escBackslashes [c]) = [c] from
          escPair_other c [] hb]
        by_cases hcq : c = q
        · subst hcq
          simp [escQuoteChar, hasUnescaped]
        · simp [escQuoteChar, hcq, hasUnescaped, hb]
    | c1 :: c2 :: s' =>
      have hlen2 : List.length (c2 :: s') ≤ m := by
        simpa using Nat.le_of_succ_le_succ hs
      have hlen1 : List.length s' ≤ m := Nat.le_of_succ_le hlen2
      by_cases hb : c1 = '\\'
      · subst hb
        by_cases hn : c2 = 'n'
        · subst hn
          rw [escPair_backslash_n]
          have heq : escQuoteChar q
              ('\\' :: '\\' :: '\\' :: 'n' :: escBackslashN (escBackslashes s')) =
              '\\' :: '\\' :: '\\' :: 'n' ::
                escQuoteChar q (escBackslashN (escBackslashes s')) := by
            simp [escQuoteChar, hq1.symm, hq2.symm]
          rw [heq]
          have := ih s' hlen1
          constructor
          · rw [hasUnescaped_pair, hasUnescaped_pair]
            exact this.1
          · rw [hasUnescaped_pair, hasUnescaped_pair]
            exact this.2
        · rw [escPair_backslash_cons c2 s' hn]
          have heq : escQuoteChar q
              ('\\' :: '\\' :: escBackslashN (escBackslashes (c2 :: s'))) =
              '\\' :: '\\' ::
                escQuoteChar q (escBackslashN (escBackslashes (c2 :: s'))) := by
            simp [escQuoteChar, hq1.symm]
          rw [heq]
          have := ih (c2 :: s') hlen2
          constructor
          · rw [hasUnescaped_pair]; exact this.1
          · rw [hasUnescaped_pair]; exact this.2
      · rw [escPair_other c1 (c2 :: s') hb]
        have := ih (c2 :: s') hlen2
        by_cases hcq : c1 = q
        · have heq : escQuoteChar q (c1 :: escBackslashN (escBackslashes (c2 :: s'))) =
              '\\' :: q :: escQuoteChar q (escBackslashN (escBackslashes (c2 :: s'))) := by
            simp [escQuoteChar, hcq]
          rw [heq]
          constructor
          · rw [hasUnescaped_pair]; exact this.1
          · rw [hasUnescaped_pair]; exact this.2
        · have heq : escQuoteChar q (c1 :: escBackslashN (escBackslashes (c2 :: s'))) =
              c1 :: escQuoteChar q (escBackslashN (escBackslashes (c2 :: s'))) := by
            simp [escQuoteChar, hcq]
          rw [heq]
          constructor
          · rw [hasUnescaped_cons_ne q c1 _ hb hcq]; exact this.1
          · rw [hasUnescaped_cons_ne '\\' c1 _ hb hb]; exact this.2

/-! ## Identity lemmas for the escaper -/

theorem escBackslashes_id (s : List Char) (h : '\\' ∉ s) :
    escBackslashes s = s := by
  induction s with
  | nil => rfl
  | cons c rest ih =>
    have hc : c ≠ '\\' := by
      intro hc; exact h (hc ▸ List.mem_cons_self c rest)
    have hrest : '\\' ∉ rest := fun hm => h (List.mem_cons_of_mem c hm)
    simp [escBackslashes, hc, ih hrest]

theorem escBackslashN_id : ∀ n s, List.length s ≤ n → '\\' ∉ s →
    escBackslashN s = s := by
  intro n
  induction n with
  | zero =>
    intro s hs _
    have : s = [] := List.length_eq_zero.mp (Nat.le_zero.mp hs)
    subst this; rfl
  | succ m ih =>
    intro s hs h
    match s with
    | [] => rfl
    | [c] => rfl
    | c1 :: c2 :: rest =>
      have hc1 : c1 ≠ '\\' := by
        intro hc; exact h (hc ▸ List.mem_cons_self c1 (c2 :: rest))
      have htail : '\\' ∉ c2 :: rest := fun hm => h (List.mem_cons_of_mem c1 hm)
      have hlen : List.length (c2 :: rest) ≤ m := by
        simpa using Nat.le_of_succ_le_succ hs
      have : ¬(c1 = '\\' ∧ c2 = 'n') := fun hand => hc1 hand.1
      simp [escBackslashN, this, ih (c2 :: rest) hlen htail]

theorem escQuoteChar_id (q : Char) (s : List Char) (h : q ∉ s) :
    escQuoteChar q s = s := by
  induction s with
  | nil => rfl
  | cons c rest ih =>
    have hc : c ≠ q := by
      intro hc; exact h (hc ▸ List.mem_cons_self c rest)
    have hrest : q ∉ rest := fun hm => h (List.mem_cons_of_mem c hm)
    simp [escQuoteChar, hc, ih hrest]

/-! ## Claim C5 -/

/-- C5: for any whitelist string containing a backslash, a single quote
and a double quote, the double-quote variant of `escape_str` contains no
unescaped double quote and no unescaped backslash, and the single-quote
variant contains no unescaped single quote and no unescaped backslash
(escapedness read off by the left-to-right scanner `hasUnescaped`). -/
theorem escape_str_no_unescaped (s : List Char)
    (h1 : '\\' ∈ s) (h2 : '\'' ∈ s) (h3 : '"' ∈ s) :
    hasUnescaped '"' (escape_str s false) = false ∧
    hasUnescaped '\\' (escape_str s false) = false ∧
    hasUnescaped '\'' (escape_str s true) = false ∧
    hasUnescaped '\\' (escape_str s true) = false := by
  have hdq := escape_no_unescaped '"' (by decide) (by decide) s.length s le_rfl
  have hsq := escape_no_unescaped '\'' (by decide) (by decide) s.length s le_rfl
  refine ⟨?_, ?_, ?_, ?_⟩
  · simpa [escape_str] using hdq.1
  · simpa [escape_str] using hdq.2
  · simpa [escape_str] using hsq.1
  · simpa [escape_str] using hsq.2

/-- Witness for C5 at the concrete whitelist `\'"`. -/
theorem escape_str_no_unescaped_witness :
    hasUnescaped '"' (escape_str ['\\', '\'', '"'] false) = false ∧
    hasUnescaped '\\' (escape_str ['\\', '\'', '"'] false) = false ∧
    hasUnescaped '\'' (escape_str ['\\', '\'', '"'] true) = false ∧
    hasUnescaped '\\' (escape_str ['\\', '\'', '"'] true) = false :=
  escape_str_no_unescaped ['\\', '\'', '"'] (by decide) (by decide) (by decide)

/-! ## Claim C9 -/

/-- C9: on a string with no backslash and no occurrence of the quote
selected by the flag, `escape_str` is the identity. -/
theorem escape_str_identity (s : List Char) (flag : Bool)
    (h1 : '\\' ∉ s) (h2 : (if flag then '\'' else '"') ∉ s) :
    escape_str s flag = s := by
  have hesc : escBackslashN (escBackslashes s) = s := by
    rw [escBackslashes_id s h1]
    exact escBackslashN_id s.length s le_rfl h1
  cases flag with
  | false =>
    have h2' : '"' ∉ s := by simpa using h2
    simp [escape_str, hesc, escQuoteChar_id '"' s h2']
  | true =>
    have h2' : '\'' ∉ s := by simpa using h2
    simp [escape_str, hesc, escQuoteChar_id '\'' s h2']

/-- Witness for C9 on a plain alphabetic whitelist. -/
theorem escape_str_identity_witness :
    escape_str ("abc".toList) false = "abc".toList :=
  escape_str_identity ("abc".toList) false (by decide) (by decide)

/-! ## The generic substitution rules

Python source:
```
FIND = {"(\"[^\\n]*)(a-zA-Z|A-Za-z)([^\\n]*\")": f"\\1\\2{escape_str(WHITELIST_CHARS, False)}\\3",
        "('[^\\n]*)(a-zA-Z|A-Za-z)([^\\n]*')": f"\\1\\2{escape_str(WHITELIST_CHARS, True)}\\3",
         }
...
for search, replace in FIND.items():
    content = re.sub(search, replace, content)
```
The regex pattern is `(q[^\n]*)(a-zA-Z|A-Za-z)([^\n]*q)` for a quote
character `q`: group 2 is the **literal** alternation matching the
six-character text `a-zA-Z` or `A-Za-z` (it is not a character class).
A match therefore starts at a `q`, its greedy group 1 runs to the last
feasible literal occurrence on the same line, and its greedy group 3
runs to the last `q` on that line.  `re.sub` rewrites non-overlapping
matches left to right, resuming after each match. -/

/-- Predicate used by the `[^\n]` character classes. -/
def notNL (x : Char) : Bool := x ≠ '\n'

/-- Index of the last occurrence of `c` in `l`, if any. -/
def lastPos (c : Char) : List Char → Option Nat
  | [] => none
  | x :: rest =>
    match lastPos c rest with
    | some n => some (n + 1)
    | none => if x = c then some 0 else none

/-- First alternative of group 2: the literal text `a-zA-Z`. -/
def litAlt1 : List Char := ['a', '-', 'z', 'A', '-', 'Z']

/-- Second alternative of group 2: the literal text `A-Za-z`. -/
def litAlt2 : List Char := ['A', '-', 'Z', 'a', '-', 'z']

/-- Does one of the two group-2 alternatives match at the head of `l`? -/
def litHere (l : List Char) : Bool :=
  (l.take 6 == litAlt1) || (l.take 6 == litAlt2)

/-- Last index `p` of `line` (at or after offset `i` of the original
line) where a group-2 literal matches and a closing quote at index `k`
is still reachable (`p + 6 ≤ k`); the greedy group 1 backtracks to the
largest such `p`. -/
def lastLitPosAux (k : Nat) : List Char → Nat → Option Nat
  | [], _ => none
  | c :: rest, i =>
    match lastLitPosAux k rest (i + 1) with
    | some p => some p
    | none =>
      if litHere (c :: rest) && decide (i + 6 ≤ k) then some i else none

def lastLitPos (line : List Char) (k : Nat) : Option Nat :=
  lastLitPosAux k line 0

/-- Expansion of a `re.sub` replacement template: `\1`, `\2`, `\3`
insert the captured groups, `\\` produces a backslash, `\n` a newline;
any other character stands for itself. -/
def expandRepl (g1 g2 g3 : List Char) : List Char → List Char
  | [] => []
  | ['\\'] => ['\\']
  | '\\' :: c :: rest =>
    if c = '1' then g1 ++ expandRepl g1 g2 g3 rest
    else if c = '2' then g2 ++ expandRepl g1 g2 g3 rest
    else if c = '3' then g3 ++ expandRepl g1 g2 g3 rest
    else if c = '\\' then '\\' :: expandRepl g1 g2 g3 rest
    else if c = 'n' then '\n' :: expandRepl g1 g2 g3 rest
    else '\\' :: c :: expandRepl g1 g2 g3 rest
  | c :: rest => c :: expandRepl g1 g2 g3 rest

/-- The replacement template `\1\2{esc}\3` of the `FIND` dictionary. -/
def genericTemplate (esc : List Char) : List Char :=
  '\\' :: '1' :: '\\' :: '2' :: (esc ++ ['\\', '3'])

/-- Attempt to match `(q[^\n]*)(a-zA-Z|A-Za-z)([^\n]*q)` at the head of
the text.  On success, returns the expanded replacement together with
the text remaining after the match. -/
def genericMatchAt (q : Char) (esc : List Char) :
    List Char → Option (List Char × List Char)
  | [] => none
  | c :: rest =>
    if c = q then
      let line := rest.takeWhile notNL
      let afterLine := rest.dropWhile notNL
      match lastPos q line with
      | none => none
      | some k =>
        match lastLitPos line k with
        | none => none
        | some p =>
          let g1 := c :: line.take p
          let g2 := (line.drop p).take 6
          let g3 := (line.drop (p + 6)).take (k + 1 - (p + 6))
          some (expandRepl g1 g2 g3 (genericTemplate esc),
                line.drop (k + 1) ++ afterLine)
    else none

/-- Fuelled left-to-right `re.sub` scan for one generic rule. -/
def reSubScanF (q : Char) (esc : List Char) : Nat → List Char → List Char
  | 0, text => text
  | _ + 1, [] => []
  | fuel + 1, c :: rest =>
    match genericMatchAt q esc (c :: rest) with
    | some (repl, remainder) => repl ++ reSubScanF q esc fuel remainder
    | none => c :: reSubScanF q esc fuel rest

/-- `re.sub` for one generic rule (`q` is the quote character of the
rule, `esc` the escaped whitelist interpolated into its template). -/
def reSubGeneric (q : Char) (esc : List Char) (text : List Char) : List Char :=
  reSubScanF q esc text.length text

/-- Number of matches replaced by the scan (mirrors `reSubScanF`). -/
def countMatchesF (q : Char) : Nat → List Char → Nat
  | 0, _ => 0
  | _ + 1, [] => 0
  | fuel + 1, c :: rest =>
    match genericMatchAt q [] (c :: rest) with
    | some (_, remainder) => countMatchesF q fuel remainder + 1
    | none => countMatchesF q fuel rest

def countMatches (q : Char) (text : List Char) : Nat :=
  countMatchesF q text.length text

/-- Does the pattern of a generic rule match anywhere in the text?
This models the `re.findall(search, content)` truthiness check that
gates the log message. -/
def hasGenericMatch (q : Char) : List Char → Bool
  | [] => false
  | c :: rest =>
    (genericMatchAt q [] (c :: rest)).isSome || hasGenericMatch q rest

/-- No group-2 literal occurs anywhere in the text. -/
def noLitIn : List Char → Bool
  | [] => true
  | c :: rest => !litHere (c :: rest) && noLitIn rest

/-- No line of the text contains a second occurrence of `q` after an
earlier one, i.e. the text contains no `q`-quoted string literal. -/
def noQuotePairOnLine (q : Char) : List Char → Bool
  | [] => true
  | c :: rest =>
    (!(c = q) || !((rest.takeWhile notNL).contains q)) && noQuotePairOnLine q rest

/-! ## The targeted rewrite of `Extensions.cs`

Python source:
```
content = re.sub(r"string allowSpecialChars.*\)",
                 f"string allowSpecialChars = \"{escape_str(WHITELIST_CHARS, True)}\")", content)
```
`.` does not match a newline and `.*` is greedy, so a match runs from
an occurrence of the literal `string allowSpecialChars` to the last
`)` on the same line (and requires at least one such `)`). -/

/-- The literal prefix `string allowSpecialChars` of the pattern. -/
def allowLit : List Char := "string allowSpecialChars".toList

/-- Attempt to match `string allowSpecialChars.*\)` at the head of the
text; on success return the text remaining after the match. -/
def targetedMatchAt (text : List Char) : Option (List Char) :=
  if text.take allowLit.length == allowLit then
    let rest := text.drop allowLit.length
    let line := rest.takeWhile notNL
    let afterLine := rest.dropWhile notNL
    match lastPos ')' line with
    | some k => some (line.drop (k + 1) ++ afterLine)
    | none => none
  else none

/-- Fuelled left-to-right `re.sub` scan for the targeted pattern. -/
def targetedScanF (repl : List Char) : Nat → List Char → List Char
  | 0, text => text
  | _ + 1, [] => []
  | fuel + 1, c :: rest =>
    match targetedMatchAt (c :: rest) with
    | some remainder => repl ++ targetedScanF repl fuel remainder
    | none => c :: targetedScanF repl fuel rest

def targetedSub (repl text : List Char) : List Char :=
  targetedScanF repl text.length text

/-- The replacement template
`string allowSpecialChars = "{escape_str(WHITELIST_CHARS, True)}")`
(note: the source passes the **single-quote** flag here). -/
def targetedTemplate (esc : List Char) : List Char :=
  ("string allowSpecialChars = \"".toList) ++ esc ++ ("\")".toList)

/-- The fully processed replacement string of the targeted rewrite. -/
def targetedRepl (w : List Char) : List Char :=
  expandRepl [] [] [] (targetedTemplate (escape_str w true))

/-- The targeted rewrite applied to the content of `Extensions.cs`. -/
def targetedRewrite (w content : List Char) : List Char :=
  targetedSub (targetedRepl w) content

/-! ## Per-file dispatch and observable events

The `os.walk` loop dispatches on the file name: the exact name
`Extensions.cs` gets the targeted rewrite; any other name with
extension `.cs` (per `os.path.splitext`) gets the two generic rules in
dictionary order (double-quote rule first); all other files are
ignored.  `Event` records the observable effects in program order. -/

inductive Event where
  | readF (path : String)
  | printLine (msg : String)
  | writeF (path : String) (content : List Char)
deriving DecidableEq

/-- Model of `os.path.splitext(file)[1]` for a bare file name: the
suffix from the last dot, unless every character before that dot is
itself a dot (so `.cs` has no extension). -/
def splitextExt (l : List Char) : List Char :=
  match lastPos '.' l with
  | none => []
  | some d => if (l.take d).any (fun c => c ≠ '.') then l.drop d else []

/-- Processing of one walked file: resulting content plus the ordered
read / print / write events the script performs for it. -/
def processFile (w : List Char) (name : String) (content : List Char) :
    List Char × List Event :=
  if name = ("Extensions.cs" : String) then
    let c1 := targetedRewrite w content
    (c1, [Event.readF name,
          Event.printLine ("Successfully modified " ++ name),
          Event.writeF name c1])
  else if splitextExt name.toList = (".cs".toList) then
    let c1 := reSubGeneric '"' (escape_str w false) content
    let e1 : List Event :=
      if hasGenericMatch '"' c1 then
        [Event.printLine ("Successfully modified " ++ name)]
      else []
    let c2 := reSubGeneric '\'' (escape_str w true) c1
    let e2 : List Event :=
      if hasGenericMatch '\'' c2 then
        [Event.printLine ("Successfully modified " ++ name)]
      else []
    (c2, Event.readF name ::
          (e1 ++ [Event.writeF name c1] ++ e2 ++ [Event.writeF name c2]))
  else (content, [])

/-- Events of a whole run over the walked files (any traversal order
may be substituted; substitutions are file-local). -/
def runAll (w : List Char) (fs : List (String × List Char)) : List Event :=
  (fs.map (fun p => (processFile w p.1 p.2).2)).flatten

/-! ## Encoding-fallback structure

Python source (the same shape at all four I/O sites):
```
try:
    with open(path, 'r') as f:
        content = f.read()
except UnicodeEncodeError:
    with open(path, 'r', encoding='utf-8') as f:
        content = f.read()
```
Only `UnicodeEncodeError` is caught; a `UnicodeDecodeError` (the error
a text-mode read actually raises) propagates. -/

inductive PyUnicodeError where
  | decodeError
  | encodeError
deriving DecidableEq

/-- Result of the guarded read: the platform-default attempt, retried
with UTF-8 only when the default attempt raised `UnicodeEncodeError`. -/
def readWithFallback (defaultRes utf8Res : Except PyUnicodeError (List Char)) :
    Except PyUnicodeError (List Char) :=
  match defaultRes with
  | Except.ok c => Except.ok c
  | Except.error e =>
    if e = PyUnicodeError.encodeError then utf8Res else Except.error e

/-- Result of the guarded write, with the same handler shape. -/
def writeWithFallback (defaultRes utf8Res : Except PyUnicodeError Unit) :
    Except PyUnicodeError Unit :=
  match defaultRes with
  | Except.ok u => Except.ok u
  | Except.error e =>
    if e = PyUnicodeError.encodeError then utf8Res else Except.error e

/-! ## Interactive input -/

/-- The prompt passed to `input(...)` on line 12 of the script. -/
def promptText : String := "Enter the chararacters you want to allow: "

/-- All interactive prompts the program issues, in order. -/
def programPrompts : List String := [promptText]

/-- The whitelist is the raw line returned by `input`; no validation
or transformation is applied. -/
def whitelistFromInput (line : String) : String := line

/-! ## List-scanning helper lemmas -/

theorem takeWhile_eq_self_of_all {α : Type} (p : α → Bool) :
    ∀ l : List α, (∀ x ∈ l, p x = true) → l.takeWhile p = l := by
  intro l
  induction l with
  | nil => intro _; rfl
  | cons c rest ih =>
    intro h
    have hc : p c = true := h c (List.mem_cons_self c rest)
    have hrest := fun x hx => h x (List.mem_cons_of_mem c hx)
    simp [List.takeWhile, hc, ih hrest]

theorem dropWhile_eq_nil_of_all {α : Type} (p : α → Bool) :
    ∀ l : List α, (∀ x ∈ l, p x = true) → l.dropWhile p = [] := by
  intro l
  induction l with
  | nil => intro _; rfl
  | cons c rest ih =>
    intro h
    have hc : p c = true := h c (List.mem_cons_self c rest)
    have hrest := fun x hx => h x (List.mem_cons_of_mem c hx)
    simp [List.dropWhile, hc, ih hrest]

theorem takeWhile_append_stop {α : Type} (p : α → Bool) (x : α)
    (hx : p x = false) : ∀ (m l2 : List α),
    (m ++ x :: l2).takeWhile p = m.takeWhile p := by
  intro m
  induction m with
  | nil => intro l2; simp [List.takeWhile, hx]
  | cons c m' ih =>
    intro l2
    cases hc : p c with
    | true => simp [List.takeWhile, hc, ih l2]
    | false => simp [List.takeWhile, hc]

theorem dropWhile_append_stop {α : Type} (p : α → Bool) (x : α)
    (hx : p x = false) : ∀ (m l2 : List α),
    (m ++ x :: l2).dropWhile p = m.dropWhile p ++ x :: l2 := by
  intro m
  induction m with
  | nil => intro l2; simp [List.dropWhile, hx]
  | cons c m' ih =>
    intro l2
    cases hc : p c with
    | true => simp [List.dropWhile, hc, ih l2]
    | false => simp [List.dropWhile, hc]

theorem lastPos_none_iff (c : Char) :
    ∀ l : List Char, lastPos c l = none ↔ c ∉ l := by
  intro l
  induction l with
  | nil => simp [lastPos]
  | cons x rest ih =>
    cases h : lastPos c rest with
    | some n =>
      simp only [lastPos, h]
      constructor
      · intro habs; cases habs
      · intro habs
        exfalso
        have : c ∈ rest := by
          by_contra hmem
          rw [← ih] at hmem
          rw [hmem] at h
          cases h
        exact habs (List.mem_cons_of_mem x this)
    | none =>
      have hrest : c ∉ rest := (ih).mp h
      simp only [lastPos, h]
      by_cases hxc : x = c
      · simp [hxc]
      · simp only [if_neg hxc]
        constructor
        · intro _ hmem
          rcases List.mem_cons.mp hmem with h1 | h2
          · exact hxc h1.symm
          · exact hrest h2
        · intro _; trivial

theorem lastPos_lt_length (c : Char) :
    ∀ (l : List Char) (k : Nat), lastPos c l = some k → k < l.length := by
  intro l
  induction l with
  | nil => intro k h; cases h
  | cons x rest ih =>
    intro k h
    cases hr : lastPos c rest with
    | some n =>
      rw [lastPos, hr] at h
      cases h
      have := ih n hr
      simpa using Nat.succ_lt_succ this
    | none =>
      rw [lastPos, hr] at h
      by_cases hxc : x = c
      · rw [if_pos hxc] at h
        cases h
        simp
      · rw [if_neg hxc] at h
        cases h

theorem lastPos_not_mem_drop (c : Char) :
    ∀ (l : List Char) (k : Nat), lastPos c l = some k → c ∉ l.drop (k + 1) := by
  intro l
  induction l with
  | nil => intro k h; cases h
  | cons x rest ih =>
    intro k h
    cases hr : lastPos c rest with
    | some n =>
      rw [lastPos, hr] at h
      cases h
      simpa using ih n hr
    | none =>
      rw [lastPos, hr] at h
      by_cases hxc : x = c
      · rw [if_pos hxc] at h
        cases h
        simpa using (lastPos_none_iff c rest).mp hr
      · rw [if_neg hxc] at h
        cases h

theorem lastPos_concat (c : Char) :
    ∀ l : List Char, lastPos c (l ++ [c]) = some l.length := by
  intro l
  induction l with
  | nil => simp [lastPos]
  | cons x rest ih =>
    simp [lastPos, ih]

/-! ## Absence of the group-2 literal makes the generic rules inert -/

theorem litHere_append (l t : List Char) (h : litHere l = true) :
    litHere (l ++ t) = true := by
  have hor : l.take 6 = litAlt1 ∨ l.take 6 = litAlt2 := by
    simpa [litHere] using h
  have h6 : 6 ≤ l.length ∧ (List.take 6 (l ++ t) = List.take 6 l → litHere (l ++ t) = true) := by
    rcases hor with hl | hl
    · have hlen : (List.take 6 l).length = 6 := by rw [hl]; rfl
      rw [List.length_take] at hlen
      refine ⟨by omega, ?_⟩
      intro heq
      simp [litHere, heq, hl]
    · have hlen : (List.take 6 l).length = 6 := by rw [hl]; rfl
      rw [List.length_take] at hlen
      refine ⟨by omega, ?_⟩
      intro heq
      simp [litHere, heq, hl]
  exact h6.2 (List.take_append_of_le_length h6.1)

theorem noLitIn_tail (c : Char) (rest : List Char)
    (h : noLitIn (c :: rest) = true) : noLitIn rest = true := by
  have h' : litHere (c :: rest) = false ∧ noLitIn rest = true := by
    simpa [noLitIn] using h
  exact h'.2

theorem noLitIn_head (c : Char) (rest : List Char)
    (h : noLitIn (c :: rest) = true) : litHere (c :: rest) = false := by
  have h' : litHere (c :: rest) = false ∧ noLitIn rest = true := by
    simpa [noLitIn] using h
  exact h'.1

theorem noLitIn_append_left : ∀ l t : List Char,
    noLitIn (l ++ t) = true → noLitIn l = true := by
  intro l
  induction l with
  | nil => intro t _; rfl
  | cons c l' ih =>
    intro t h
    have hh : litHere (c :: (l' ++ t)) = false := noLitIn_head c (l' ++ t) h
    have hl : litHere (c :: l') = false := by
      by_contra hc
      have : litHere ((c :: l') ++ t) = true :=
        litHere_append (c :: l') t (Bool.of_not_eq_false hc)
      rw [List.cons_append] at this
      rw [this] at hh
      cases hh
    have ht := ih t (noLitIn_tail c (l' ++ t) h)
    simp [noLitIn, hl, ht]

theorem lastLitPosAux_none (k : Nat) : ∀ (line : List Char) (i : Nat),
    noLitIn line = true → lastLitPosAux k line i = none := by
  intro line
  induction line with
  | nil => intro i _; rfl
  | cons c rest ih =>
    intro i h
    have h1 := noLitIn_head c rest h
    have h2 := noLitIn_tail c rest h
    simp [lastLitPosAux, ih (i + 1) h2, h1]

theorem genericMatchAt_none_of_noLit (q : Char) (esc : List Char)
    (c : Char) (rest : List Char) (h : noLitIn (c :: rest) = true) :
    genericMatchAt q esc (c :: rest) = none := by
  by_cases hq : c = q
  · have hrest := noLitIn_tail c rest h
    have hline : noLitIn (rest.takeWhile notNL) = true := by
      refine noLitIn_append_left _ (rest.dropWhile notNL) ?_
      rw [List.takeWhile_append_dropWhile]
      exact hrest
    have hlit := lastLitPosAux_none
    simp only [genericMatchAt, if_pos hq]
    cases hlp : lastPos q (rest.takeWhile notNL) with
    | none => simp [hlp]
    | some k =>
      simp [hlp, lastLitPos, lastLitPosAux_none k (rest.takeWhile notNL) 0 hline]
  · simp [genericMatchAt, hq]

theorem reSubScanF_id_of_noLit (q : Char) (esc : List Char) :
    ∀ (fuel : Nat) (text : List Char), noLitIn text = true →
      reSubScanF q esc fuel text = text := by
  intro fuel
  induction fuel with
  | zero => intro text _; rfl
  | succ f ih =>
    intro text h
    cases text with
    | nil => rfl
    | cons c rest =>
      simp [reSubScanF, genericMatchAt_none_of_noLit q esc c rest h,
        ih rest (noLitIn_tail c rest h)]

theorem reSubGeneric_id_of_noLit (q : Char) (esc text : List Char)
    (h : noLitIn text = true) : reSubGeneric q esc text = text :=
  reSubScanF_id_of_noLit q esc text.length text h

/-! ## Claim C1 -/

/-- C1 counterexample: on `"hello world"` (which contains ASCII letters
but not the literal six-character alternation `a-zA-Z` / `A-Za-z`), the
double-quote rule with whitelist `XYZ` leaves the text unchanged, and
in particular does not produce `"hXYZello world"`. -/
theorem generic_rule_letter_counterexample :
    reSubGeneric '"' (escape_str ("XYZ".toList) false) ("\"hello world\"".toList) =
      ("\"hello world\"".toList) ∧
    reSubGeneric '"' (escape_str ("XYZ".toList) false) ("\"hello world\"".toList) ≠
      ("\"hXYZello world\"".toList) := by
  constructor
  · decide
  · decide

/-- C1 amended: group 2 of each generic rule is the literal alternation
`a-zA-Z` / `A-Za-z`, not a character class.  A text without either
six-character substring is left unchanged by both rules, and on a
quoted literal containing the substring the escaped whitelist is
inserted immediately after it: `"a-zA-Z"` with whitelist `XYZ` becomes
`"a-zA-ZXYZ"` (resp. `'A-Za-z'` becomes `'A-Za-zXYZ'`). -/
theorem generic_rule_literal_behavior :
    (∀ (q : Char) (esc text : List Char), noLitIn text = true →
      reSubGeneric q esc text = text) ∧
    reSubGeneric '"' (escape_str ("XYZ".toList) false) ("\"a-zA-Z\"".toList) =
      ("\"a-zA-ZXYZ\"".toList) ∧
    reSubGeneric '\'' (escape_str ("XYZ".toList) true) ("'A-Za-z'".toList) =
      ("'A-Za-zXYZ'".toList) := by
  refine ⟨reSubGeneric_id_of_noLit, by decide, by decide⟩

/-- Witness for the amended C1: the hypothesis of the general conjunct
discharged at the concrete letter-bearing text `"hello world"`. -/
theorem generic_rule_literal_behavior_witness :
    reSubGeneric '"' ("XYZ".toList) ("\"hello world\"".toList) =
      ("\"hello world\"".toList) :=
  generic_rule_literal_behavior.1 '"' ("XYZ".toList)
    ("\"hello world\"".toList) (by decide)

/-! ## Claim C2 -/

/-- C2 (code bug): the targeted rewrite escapes the whitelist with the
**single-quote** flag (line 29 passes `True`), so for whitelist `"` the
double quote is inserted unescaped, yielding
`string allowSpecialChars = """)` instead of the double-quote-escaped
declaration `string allowSpecialChars = "\"")` that the specification
describes. -/
theorem targeted_rewrite_flag_divergence :
    targetedRewrite ("\"".toList) ("string allowSpecialChars = \"abc\")".toList) =
      ("string allowSpecialChars = \"\"\")".toList) ∧
    targetedRewrite ("\"".toList) ("string allowSpecialChars = \"abc\")".toList) ≠
      ("string allowSpecialChars = \"\\\"\")".toList) := by
  constructor
  · decide
  · decide

/-! ## Claim C3 -/

theorem targetedScanF_nil (repl : List Char) :
    ∀ fuel : Nat, targetedScanF repl fuel [] = [] := by
  intro fuel
  cases fuel with
  | zero => rfl
  | succ f => rfl

theorem targetedSub_head_match (repl text rem : List Char)
    (h : targetedMatchAt text = some rem) :
    targetedSub repl text = repl ++ targetedScanF repl (text.length - 1) rem := by
  cases text with
  | nil =>
    have : targetedMatchAt ([] : List Char) = none := by decide
    rw [this] at h
    cases h
  | cons c rest =>
    simp only [targetedSub, List.length_cons, Nat.add_sub_cancel]
    rw [show (rest.length + 1) = rest.length + 1 from rfl]
    simp [targetedScanF, h]

/-- C3: the targeted pattern `string allowSpecialChars.*\)` is greedy:
whenever the literal is followed on one line by a parenthesis, then
more text and a second parenthesis, the match (and hence the replaced
span) extends through the **last** parenthesis of the line, consuming
the text between the two parentheses. -/
theorem targeted_greedy_last_paren (w a b : List Char)
    (ha : '\n' ∉ a) (hb : '\n' ∉ b) :
    targetedSub (targetedRepl w)
        (allowLit ++ (a ++ ')' :: (b ++ [')']))) = targetedRepl w := by
  have hall : ∀ x ∈ a ++ ')' :: (b ++ [')']), notNL x = true := by
    intro x hx
    have hxne : x ≠ '\n' := by
      rcases List.mem_append.mp hx with h1 | h2
      · exact fun he => ha (he ▸ h1)
      · rcases List.mem_cons.mp h2 with h3 | h4
        · subst h3; decide
        · rcases List.mem_append.mp h4 with h5 | h6
          · exact fun he => hb (he ▸ h5)
          · rcases List.mem_cons.mp h6 with h7 | h8
            · subst h7; decide
            · cases h8
    simpa [notNL] using hxne
  have hmatch : targetedMatchAt (allowLit ++ (a ++ ')' :: (b ++ [')']))) =
      some [] := by
    have htake : (allowLit ++ (a ++ ')' :: (b ++ [')']))).take allowLit.length =
        allowLit := List.take_left allowLit _
    have hdrop : (allowLit ++ (a ++ ')' :: (b ++ [')']))).drop allowLit.length =
        a ++ ')' :: (b ++ [')']) := List.drop_left allowLit _
    have hline : (a ++ ')' :: (b ++ [')'])).takeWhile notNL =
        a ++ ')' :: (b ++ [')']) := takeWhile_eq_self_of_all notNL _ hall
    have hafter : (a ++ ')' :: (b ++ [')'])).dropWhile notNL = [] :=
      dropWhile_eq_nil_of_all notNL _ hall
    have hassoc : a ++ ')' :: (b ++ [')']) = (a ++ ')' :: b) ++ [')'] := by
      simp
    have hlast : lastPos ')' (a ++ ')' :: (b ++ [')'])) =
        some (a.length + b.length + 1) := by
      rw [hassoc, lastPos_concat]
      have : (a ++ ')' :: b).length = a.length + b.length + 1 := by
        simp
        omega
      rw [this]
    simp only [targetedMatchAt, htake, hdrop, hline, hafter, hlast, beq_self_eq_true,
      if_true]
    have hlen : a.length + b.length + 1 + 1 = (a ++ ')' :: (b ++ [')'])).length := by
      simp
      omega
    rw [hlen, List.drop_length]
    simp
  rw [targetedSub_head_match _ _ _ hmatch, targetedScanF_nil]
  simp

/-- Witness for C3 on a line holding two closing parentheses: the text
after the first parenthesis is swallowed by the match. -/
theorem targeted_greedy_last_paren_witness :
    targetedSub (targetedRepl ("Q".toList))
        (allowLit ++ ((" = \"abc\"".toList) ++ ')' :: ((" foo".toList) ++ [')']))) =
      targetedRepl ("Q".toList) :=
  targeted_greedy_last_paren ("Q".toList) (" = \"abc\"".toList) (" foo".toList)
    (by decide) (by decide)

/-! ## Claim C4 -/

/-- C4 (code bug): the `except UnicodeEncodeError` handler retries the
UTF-8 attempt only for a `UnicodeEncodeError`; a `UnicodeDecodeError`
raised by the platform-default read propagates without any retry,
contrary to the specified decode-or-encode fallback. -/
theorem read_fallback_catches_only_encode
    (utf8Res : Except PyUnicodeError (List Char)) :
    readWithFallback (Except.error PyUnicodeError.decodeError) utf8Res =
      Except.error PyUnicodeError.decodeError ∧
    readWithFallback (Except.error PyUnicodeError.encodeError) utf8Res =
      utf8Res := by
  constructor
  · simp [readWithFallback]
  · simp [readWithFallback]

/-! ## Claim C8 -/

/-- C8 counterexample: the prompt the script passes to `input` is not
the text the claim states (the source says `chararacters`, with a
trailing space). -/
theorem prompt_text_counterexample :
    programPrompts ≠ [("Enter the characters you want to allow:" : String)] := by
  decide

/-- C8 amended: the program issues exactly one interactive prompt,
whose text is `Enter the chararacters you want to allow: ` (sic, with
the source's typo and trailing space), and the whitelist is the raw
input line, unvalidated. -/
theorem prompt_text_amended :
    programPrompts = [("Enter the chararacters you want to allow: " : String)] ∧
    programPrompts.length = 1 ∧
    ∀ line : String, whitelistFromInput line = line := by
  exact ⟨rfl, rfl, fun line => rfl⟩

/-! ## Absence of quote pairs makes a generic rule inert (claim C6) -/

theorem noQuotePair_tail (q c : Char) (rest : List Char)
    (h : noQuotePairOnLine q (c :: rest) = true) :
    noQuotePairOnLine q rest = true := by
  have h' : ((!(c = q : Bool)) || !((rest.takeWhile notNL).contains q)) = true ∧
      noQuotePairOnLine q rest = true := by
    simpa [noQuotePairOnLine, Bool.and_eq_true] using h
  exact h'.2

theorem noQuotePair_head (q c : Char) (rest : List Char)
    (h : noQuotePairOnLine q (c :: rest) = true) (hc : c = q) :
    q ∉ rest.takeWhile notNL := by
  have h' : ((!(c = q : Bool)) || !((rest.takeWhile notNL).contains q)) = true ∧
      noQuotePairOnLine q rest = true := by
    simpa [noQuotePairOnLine, Bool.and_eq_true] using h
  have h1 := h'.1
  rw [hc] at h1
  simp only [decide_True, Bool.not_true, Bool.false_or, Bool.not_eq_true'] at h1
  intro hmem
  have : (rest.takeWhile notNL).contains q = true := by simpa using hmem
  rw [this] at h1
  cases h1

theorem genericMatchAt_none_of_noQuotePair (q : Char) (esc : List Char)
    (c : Char) (rest : List Char)
    (h : noQuotePairOnLine q (c :: rest) = true) :
    genericMatchAt q esc (c :: rest) = none := by
  by_cases hcq : c = q
  · have hmem := noQuotePair_head q c rest h hcq
    have hlp : lastPos q (rest.takeWhile notNL) = none :=
      (lastPos_none_iff q (rest.takeWhile notNL)).mpr hmem
    simp [genericMatchAt, hcq, hlp]
  · simp [genericMatchAt, hcq]

theorem reSubScanF_id_of_noQuotePair (q : Char) (esc : List Char) :
    ∀ (fuel : Nat) (text : List Char), noQuotePairOnLine q text = true →
      reSubScanF q esc fuel text = text := by
  intro fuel
  induction fuel with
  | zero => intro text _; rfl
  | succ f ih =>
    intro text h
    cases text with
    | nil => rfl
    | cons c rest =>
      simp [reSubScanF, genericMatchAt_none_of_noQuotePair q esc c rest h,
        ih rest (noQuotePair_tail q c rest h)]

theorem reSubGeneric_id_of_noQuotePair (q : Char) (esc text : List Char)
    (h : noQuotePairOnLine q text = true) : reSubGeneric q esc text = text :=
  reSubScanF_id_of_noQuotePair q esc text.length text h

theorem hasGenericMatch_false_of_noQuotePair (q : Char) :
    ∀ text : List Char, noQuotePairOnLine q text = true →
      hasGenericMatch q text = false := by
  intro text
  induction text with
  | nil => intro _; rfl
  | cons c rest ih =>
    intro h
    simp [hasGenericMatch, genericMatchAt_none_of_noQuotePair q [] c rest h,
      ih (noQuotePair_tail q c rest h)]

/-- C6: on a `.cs` file whose content has no quoted string literal (no
line holds a pair of double quotes nor a pair of single quotes), both
generic rules leave the content byte-for-byte unchanged, no log line is
printed, and the file is nonetheless written back (once per rule). -/
theorem generic_substitution_no_literals_identity
    (w : List Char) (name : String) (content : List Char)
    (hname : name ≠ ("Extensions.cs" : String))
    (hext : splitextExt name.toList = (".cs".toList))
    (hdq : noQuotePairOnLine '"' content = true)
    (hsq : noQuotePairOnLine '\'' content = true) :
    processFile w name content =
      (content, [Event.readF name, Event.writeF name content,
                 Event.writeF name content]) := by
  have h1 : reSubGeneric '"' (escape_str w false) content = content :=
    reSubGeneric_id_of_noQuotePair '"' _ content hdq
  have h2 : reSubGeneric '\'' (escape_str w true) content = content :=
    reSubGeneric_id_of_noQuotePair '\'' _ content hsq
  have h3 : hasGenericMatch '"' content = false :=
    hasGenericMatch_false_of_noQuotePair '"' content hdq
  have h4 : hasGenericMatch '\'' content = false :=
    hasGenericMatch_false_of_noQuotePair '\'' content hsq
  have hext' : splitextExt name.data = ['.', 'c', 's'] := by simpa using hext
  simp [processFile, hname, hext', h1, h2, h3, h4]

/-- Witness for C6 on a quote-free `.cs` content. -/
theorem generic_substitution_no_literals_identity_witness :
    processFile ("X".toList) "Foo.cs" ("int x = 1;\nreturn x;".toList) =
      (("int x = 1;\nreturn x;".toList),
       [Event.readF "Foo.cs",
        Event.writeF "Foo.cs" ("int x = 1;\nreturn x;".toList),
        Event.writeF "Foo.cs" ("int x = 1;\nreturn x;".toList)]) :=
  generic_substitution_no_literals_identity ("X".toList) "Foo.cs"
    ("int x = 1;\nreturn x;".toList) (by decide) (by decide) (by decide) (by decide)

/-! ## One insertion per line (claim C10) -/

/-- A generic-rule match never crosses a newline: matching against a
text with a newline appended (followed by anything) gives exactly the
match of the part before the newline, with the untouched tail carried
over into the remainder. -/
theorem genericMatchAt_append_newline (q : Char) (esc : List Char)
    (hq : q ≠ '\n') : ∀ s l2 : List Char,
    genericMatchAt q esc (s ++ '\n' :: l2) =
      (genericMatchAt q esc s).map (fun pr => (pr.1, pr.2 ++ '\n' :: l2)) := by
  intro s l2
  cases s with
  | nil =>
    simp [genericMatchAt, Ne.symm hq]
  | cons c m =>
    by_cases hcq : c = q
    · have hnl : notNL '\n' = false := by decide
      have ht : (m ++ '\n' :: l2).takeWhile notNL = m.takeWhile notNL :=
        takeWhile_append_stop notNL '\n' hnl m l2
      have hd : (m ++ '\n' :: l2).dropWhile notNL =
          m.dropWhile notNL ++ '\n' :: l2 :=
        dropWhile_append_stop notNL '\n' hnl m l2
      simp only [List.cons_append, genericMatchAt, if_pos hcq, ht, hd]
      cases hk : lastPos q (m.takeWhile notNL) with
      | none => simp [hk]
      | some k =>
        cases hp : lastLitPos (m.takeWhile notNL) k with
        | none => simp [hk, hp]
        | some p => simp [hk, hp, List.append_assoc]
    · simp [genericMatchAt, hcq]

/-- Structure of a successful generic match: its remainder is the rest
of the matched line after its last quote, followed by the rest of the
text after the line. -/
theorem genericMatchAt_some_shape (q : Char) (esc : List Char)
    (c : Char) (rest repl rem : List Char)
    (h : genericMatchAt q esc (c :: rest) = some (repl, rem)) :
    ∃ k, lastPos q (rest.takeWhile notNL) = some k ∧
      rem = (rest.takeWhile notNL).drop (k + 1) ++ rest.dropWhile notNL := by
  by_cases hcq : c = q
  · simp only [genericMatchAt, if_pos hcq] at h
    cases hk : lastPos q (rest.takeWhile notNL) with
    | none => simp [hk] at h
    | some k =>
      cases hp : lastLitPos (rest.takeWhile notNL) k with
      | none => simp [hk, hp] at h
      | some p =>
        simp only [hk, hp, Option.some.injEq, Prod.mk.injEq] at h
        exact ⟨k, rfl, h.2.symm⟩
  · simp [genericMatchAt, hcq] at h

theorem countMatchesF_zero_of_not_mem (q : Char) :
    ∀ (fuel : Nat) (text : List Char), q ∉ text →
      countMatchesF q fuel text = 0 := by
  intro fuel
  induction fuel with
  | zero => intro text _; rfl
  | succ f ih =>
    intro text h
    cases text with
    | nil => rfl
    | cons c rest =>
      have hcq : c ≠ q := by
        intro he; exact h (he ▸ List.mem_cons_self c rest)
      have hmatch : genericMatchAt q [] (c :: rest) = none := by
        simp [genericMatchAt, fun he => hcq he]
      have hrest : q ∉ rest := fun hm => h (List.mem_cons_of_mem c hm)
      simp [countMatchesF, hmatch, ih rest hrest]

theorem countMatchesF_le_one_of_no_newline (q : Char) :
    ∀ (fuel : Nat) (text : List Char), '\n' ∉ text →
      countMatchesF q fuel text ≤ 1 := by
  intro fuel
  induction fuel with
  | zero => intro text _; exact Nat.zero_le 1
  | succ f ih =>
    intro text h
    cases text with
    | nil => exact Nat.zero_le 1
    | cons c rest =>
      have hrest : '\n' ∉ rest := fun hm => h (List.mem_cons_of_mem c hm)
      cases hm : genericMatchAt q [] (c :: rest) with
      | none =>
        simp only [countMatchesF, hm]
        exact ih rest hrest
      | some pr =>
        obtain ⟨repl, rem⟩ := pr
        obtain ⟨k, hk, hrem⟩ :=
          genericMatchAt_some_shape q [] c rest repl rem hm
        have hall : ∀ x ∈ rest, notNL x = true := by
          intro x hx
          have : x ≠ '\n' := fun he => hrest (he ▸ hx)
          simpa [notNL] using this
        have htw : rest.takeWhile notNL = rest :=
          takeWhile_eq_self_of_all notNL rest hall
        have hdw : rest.dropWhile notNL = [] :=
          dropWhile_eq_nil_of_all notNL rest hall
        have hq_not : q ∉ rem := by
          rw [hrem, htw, hdw, List.append_nil]
          rw [htw] at hk
          exact lastPos_not_mem_drop q rest k hk
        have hzero : countMatchesF q f rem = 0 :=
          countMatchesF_zero_of_not_mem q f rem hq_not
        simp only [countMatchesF, hm, hzero]
        exact le_refl 1

/-- C10: for either generic rule (quote character `q`, any escaped
whitelist), a match never spans a newline (matching is line-local) and
a single `re.sub` application performs at most one replacement — hence
one whitelist insertion — within any newline-free text (one line). -/
theorem generic_rule_once_per_line (q : Char) (esc : List Char)
    (hq : q ≠ '\n') :
    (∀ s l2 : List Char,
      genericMatchAt q esc (s ++ '\n' :: l2) =
        (genericMatchAt q esc s).map (fun pr => (pr.1, pr.2 ++ '\n' :: l2))) ∧
    (∀ text : List Char, '\n' ∉ text → countMatches q text ≤ 1) := by
  constructor
  · exact genericMatchAt_append_newline q esc hq
  · intro text h
    exact countMatchesF_le_one_of_no_newline q text.length text h

/-- Witness for C10: the double-quote rule on a line with two quoted
literals both containing the group-2 alternation still fires at most
once. -/
theorem generic_rule_once_per_line_witness :
    countMatches '"' ("x \"a-zA-Z\" y \"A-Za-z\" z".toList) ≤ 1 :=
  (generic_rule_once_per_line '"' [] (by decide)).2
    ("x \"a-zA-Z\" y \"A-Za-z\" z".toList) (by decide)

/-! ## The walk ignores non-`.cs` files (claim C7) -/

theorem processFile_skip (w : List Char) (name : String) (content : List Char)
    (hname : name ≠ ("Extensions.cs" : String))
    (hext : splitextExt name.toList ≠ (".cs".toList)) :
    processFile w name content = (content, []) := by
  unfold processFile
  rw [if_neg hname, if_neg hext]

theorem processFile_event_shape (w : List Char) (name : String)
    (content : List Char) :
    ∀ e ∈ (processFile w name content).2,
      e = Event.readF name ∨ (∃ m, e = Event.printLine m) ∨
      ∃ cc, e = Event.writeF name cc := by
  intro e he
  unfold processFile at he
  by_cases h1 : name = ("Extensions.cs" : String)
  · rw [if_pos h1] at he
    simp only [List.mem_cons, List.not_mem_nil, or_false] at he
    rcases he with h | h | h
    · exact Or.inl h
    · exact Or.inr (Or.inl ⟨_, h⟩)
    · exact Or.inr (Or.inr ⟨_, h⟩)
  · rw [if_neg h1] at he
    by_cases h2 : splitextExt name.toList = (".cs".toList)
    · rw [if_pos h2] at he
      simp only [List.mem_cons, List.mem_append] at he
      rcases he with h | h
      · exact Or.inl h
      · rcases h with ((h | h) | h) | h
        · split at h
          · simp only [List.mem_cons, List.not_mem_nil, or_false] at h
            exact Or.inr (Or.inl ⟨_, h⟩)
          · simp at h
        · simp only [List.mem_cons, List.not_mem_nil, or_false] at h
          exact Or.inr (Or.inr ⟨_, h⟩)
        · split at h
          · simp only [List.mem_cons, List.not_mem_nil, or_false] at h
            exact Or.inr (Or.inl ⟨_, h⟩)
          · simp at h
        · simp only [List.mem_cons, List.not_mem_nil, or_false] at h
          exact Or.inr (Or.inr ⟨_, h⟩)
    · rw [if_neg h2] at he
      simp at he

/-- C7: a walk over files none of which is named `Extensions.cs` or
carries the `.cs` extension produces no events at all (no console
output after the prompt, no reads, no writes); moreover, in any walk
whatsoever, no file that is neither `Extensions.cs` nor `.cs` is ever
read or written. -/
theorem walk_ignores_non_cs (w : List Char)
    (fs : List (String × List Char)) :
    ((∀ p ∈ fs, p.1 ≠ ("Extensions.cs" : String) ∧
        splitextExt p.1.toList ≠ (".cs".toList)) → runAll w fs = []) ∧
    (∀ (n : String) (c : List Char), n ≠ ("Extensions.cs" : String) →
      splitextExt n.toList ≠ (".cs".toList) →
      Event.readF n ∉ runAll w fs ∧ Event.writeF n c ∉ runAll w fs) := by
  induction fs with
  | nil =>
    refine ⟨fun _ => rfl, fun n c _ _ => ⟨?_, ?_⟩⟩
    · simp [runAll]
    · simp [runAll]
  | cons p fs' ih =>
    have hcons : runAll w (p :: fs') =
        (processFile w p.1 p.2).2 ++ runAll w fs' := by
      simp [runAll]
    constructor
    · intro h
      have hp := h p (List.mem_cons_self p fs')
      rw [hcons, processFile_skip w p.1 p.2 hp.1 hp.2]
      simpa using ih.1 (fun r hr => h r (List.mem_cons_of_mem p hr))
    · intro n c hn hext
      have ihn := ih.2 n c hn hext
      have hskip : p.1 = n → (processFile w p.1 p.2).2 = [] := by
        intro hnp
        rw [processFile_skip w p.1 p.2 (hnp ▸ hn) (hnp ▸ hext)]
      constructor
      · intro hmem
        rw [hcons] at hmem
        rcases List.mem_append.mp hmem with hh | ht
        · rcases processFile_event_shape w p.1 p.2 _ hh with h | h | h
          · injection h with hnp
            rw [hskip hnp.symm] at hh
            simp at hh
          · obtain ⟨m, hm⟩ := h
            exact Event.noConfusion hm
          · obtain ⟨cc, hcc⟩ := h
            exact Event.noConfusion hcc
        · exact ihn.1 ht
      · intro hmem
        rw [hcons] at hmem
        rcases List.mem_append.mp hmem with hh | ht
        · rcases processFile_event_shape w p.1 p.2 _ hh with h | h | h
          · exact Event.noConfusion h
          · obtain ⟨m, hm⟩ := h
            exact Event.noConfusion hm
          · obtain ⟨cc, hcc⟩ := h
            injection hcc with hnp _
            rw [hskip hnp.symm] at hh
            simp at hh
        · exact ihn.2 ht

/-- Witness for C7 on a one-file tree holding only `readme.txt`. -/
theorem walk_ignores_non_cs_witness :
    runAll ("X".toList) [("readme.txt", ("hello".toList))] = [] ∧
    Event.readF "notes.md" ∉
      runAll ("X".toList) [("readme.txt", ("hello".toList))] := by
  constructor
  · exact (walk_ignores_non_cs ("X".toList)
      [("readme.txt", ("hello".toList))]).1 (by decide)
  · exact ((walk_ignores_non_cs ("X".toList)
      [("readme.txt", ("hello".toList))]).2 "notes.md" [] (by decide)
      (by decide)).1
